import Mathlib

/-!
Verification of the Jura protocol codec engine (`src/read_data.py`).

The development shallowly embeds the codec parts of the script:
* `BtEncoder.shuffle` / `BtEncoder.encDecBytes` / `BtEncoder.bruteforce_key`
  (the keyed nibble-substitution cipher and the session-key brute force),
* `JuraEncoder.tojura` / `JuraEncoder.fromjura` (the 4-byte character codec,
  including the UTF-8 `str.encode()` / `bytes.decode()` steps the Python code
  performs at its boundaries),
* the module-level statistics reassembly comprehensions (lines 274 and 291)
  and `log_statistics`,
* the module-level alert scan loop (lines 264-268).

Python `%` on a positive modulus always returns a non-negative result; Lean's
`Int.emod` (the `%` of `Int`) has the same behaviour, so the cipher arithmetic
is carried out on `Int` wherever an intermediate value can be negative.
-/

set_option maxRecDepth 10000

/-! ## Definitions: nibble cipher (`BtEncoder`) -/

/-- `BtEncoder.numbers1` (line 72): first fixed substitution table. -/
def numbers1 : List Int := [14, 4, 3, 2, 1, 13, 8, 11, 6, 15, 12, 7, 10, 5, 0, 9]

/-- `BtEncoder.numbers2` (line 73): second fixed substitution table. -/
def numbers2 : List Int := [10, 6, 13, 12, 14, 11, 1, 9, 15, 7, 0, 5, 3, 2, 4, 8]

/-- `BtEncoder.mod256` (lines 78-79): `i % 256` (Python `%`, non-negative result). -/
def mod256 (i : Int) : Int := i % 256

/-- `BtEncoder.shuffle` (lines 81-86), translated literally.  The indices taken
modulo 16 always lie in `[0, 16)`, so the `List.getD` defaults are never used. -/
def shuffle (dataNibble nibbleCount keyLeftNibbel keyRightNibbel : Nat) : Nat :=
  let i5 : Int := mod256 ((nibbleCount >>> 4 : Nat) : Int)
  let tmp1 : Int := numbers1.getD ((mod256 ((dataNibble : Int) + (nibbleCount : Int) + (keyLeftNibbel : Int)) % 16).toNat) 0
  let tmp2 : Int := numbers2.getD ((mod256 (tmp1 + (keyRightNibbel : Int) + i5 - (nibbleCount : Int) - (keyLeftNibbel : Int)) % 16).toNat) 0
  let tmp3 : Int := numbers1.getD ((mod256 (tmp2 + (keyLeftNibbel : Int) + (nibbleCount : Int) - (keyRightNibbel : Int) - i5) % 16).toNat) 0
  ((mod256 (tmp3 - (nibbleCount : Int) - (keyLeftNibbel : Int))) % 16).toNat

/-- The loop body of `BtEncoder.encDecBytes` (lines 93-100): processes the
remaining bytes, threading the running nibble counter. -/
def encDecAux (data : List Nat) (nibbelCount keyLeftNibbel keyRightNibbel : Nat) : List Nat :=
  match data with
  | [] => []
  | d :: rest =>
    let resultLeftNibbel := shuffle (d >>> 4) nibbelCount keyLeftNibbel keyRightNibbel
    let resultRightNibbel := shuffle (d &&& 15) (nibbelCount + 1) keyLeftNibbel keyRightNibbel
    ((resultLeftNibbel <<< 4) ||| resultRightNibbel) ::
      encDecAux rest (nibbelCount + 2) keyLeftNibbel keyRightNibbel

/-- `BtEncoder.encDecBytes` (lines 88-102).  The Python function receives the
key as a two-digit hex string and parses it with `int(key, 16)`; the embedding
takes the parsed key byte directly. -/
def encDecBytes (data : List Nat) (key : Nat) : List Nat :=
  encDecAux data 0 (key >>> 4) (key &&& 15)

/-- The loop of `BtEncoder.bruteforce_key` (lines 106-113): try candidate keys
`key, key+1, ...` while `fuel` lasts.  The Python comparison `result[0] ==
int(key_hex, 16)` is rendered as `(encDecBytes data key).head? = some key`,
which agrees with the source whenever `data` is non-empty (on an empty payload
the Python code would raise `IndexError` instead). -/
def bruteforce_from (data : List Nat) (key : Nat) : Nat → Option Nat
  | 0 => none
  | fuel + 1 =>
    if (encDecBytes data key).head? = some key then some key
    else bruteforce_from data (key + 1) fuel

/-- `BtEncoder.bruteforce_key` (lines 104-113): search keys 0..255 in ascending
order; `none` models the Python `return None`.  The hex parsing of the
space-separated input string (line 105) is I/O plumbing and is elided: the
embedding receives the parsed byte list. -/
def bruteforce_key (data : List Nat) : Option Nat :=
  bruteforce_from data 0 256

/-- `Table1` of the specification §4.1 (reference definition, spec wording). -/
def Table1 : List Int := [14, 4, 3, 2, 1, 13, 8, 11, 6, 15, 12, 7, 10, 5, 0, 9]

/-- `Table2` of the specification §4.1 (reference definition, spec wording). -/
def Table2 : List Int := [10, 6, 13, 12, 14, 11, 1, 9, 15, 7, 0, 5, 3, 2, 4, 8]

/-- The specification's three-table reference definition of the per-nibble
transform (§4.1), written from the spec's words: `aux = (position >> 4) mod
256`, each table index wrapped `mod 256` then reduced `mod 16`, and the result
`(t3 - position - keyHigh) mod 256 mod 16`. -/
def shuffle_spec (nibble position keyHigh keyLow : Nat) : Nat :=
  let aux : Int := ((position >>> 4 : Nat) : Int) % 256
  let t1 : Int := Table1.getD ((((nibble : Int) + (position : Int) + (keyHigh : Int)) % 256 % 16).toNat) 0
  let t2 : Int := Table2.getD (((t1 + (keyLow : Int) + aux - (position : Int) - (keyHigh : Int)) % 256 % 16).toNat) 0
  let t3 : Int := Table1.getD (((t2 + (keyHigh : Int) + (position : Int) - (keyLow : Int) - aux) % 256 % 16).toNat) 0
  ((t3 - (position : Int) - (keyHigh : Int)) % 256 % 16).toNat

/-- Core of `shuffle` exposing the two quantities the transform actually
depends on: `a = (position + keyHigh) % 16` and `s = (keyLow + aux) % 16`. -/
def shuffleInt (n a s : Int) : Int :=
  let tmp1 : Int := numbers1.getD (((n + a) % 16).toNat) 0
  let tmp2 : Int := numbers2.getD (((tmp1 + s - a) % 16).toNat) 0
  let tmp3 : Int := numbers1.getD (((tmp2 + a - s) % 16).toNat) 0
  (tmp3 - a) % 16

/-! ## Definitions: character codec (`JuraEncoder`) -/

/-- `JuraEncoder.base_layout` (line 37): the fixed template bit pattern
`bitarray('01011011')`, most-significant bit first. -/
def base_layout : List Bool := [false, true, false, true, true, false, true, true]

/-- UTF-8 encoding of one code point, as Python's `str.encode()` produces for a
single-character string (line 43 does `letter.encode()`). -/
def utf8Encode (c : Nat) : List Nat :=
  if c < 128 then [c]
  else if c < 2048 then [192 ||| (c >>> 6), 128 ||| (c &&& 63)]
  else if c < 65536 then
    [224 ||| (c >>> 12), 128 ||| ((c >>> 6) &&& 63), 128 ||| (c &&& 63)]
  else
    [240 ||| (c >>> 18), 128 ||| ((c >>> 12) &&& 63), 128 ||| ((c >>> 6) &&& 63), 128 ||| (c &&& 63)]

/-- The bits of one byte, most-significant first, as `bitarray.frombytes`
exposes them. -/
def byteToBits (b : Nat) : List Bool :=
  [b.testBit 7, b.testBit 6, b.testBit 5, b.testBit 4,
   b.testBit 3, b.testBit 2, b.testBit 1, b.testBit 0]

/-- `bitarray.tobytes()` of 8 bits, most-significant first. -/
def bitsToByte (bits : List Bool) : Nat :=
  bits.foldl (fun acc b => 2 * acc + (if b then 1 else 0)) 0

/-- Lines 45-46 of `tojura`: `c = c[2:4] + c[0:2] + c[6:8] + c[4:6]` followed by
`c = c[4:] + c[:4]`. -/
def juraPermute (c : List Bool) : List Bool :=
  let c1 := (c.drop 2).take 2 ++ c.take 2 ++ (c.drop 6).take 2 ++ (c.drop 4).take 2
  c1.drop 4 ++ c1.take 4

/-- The successful branch of `JuraEncoder.tojura` (lines 42-54) on the single
character with code point `c`: take the last 8 bits of the character's UTF-8
encoding (`c.frombytes(letter.encode()); c = c[-8:]`, i.e. the bits of the
final UTF-8 byte), permute them, and plant bit `2*i` at position 2 and bit
`2*i+1` at position 5 of the `i`-th copy of `base_layout`. -/
def tojuraRaw (c : Nat) : List (List Bool) :=
  let bits := juraPermute (byteToBits ((utf8Encode c).getLastD 0))
  (List.range 4).map (fun i =>
    (base_layout.set 2 (bits.getD (i * 2) false)).set 5 (bits.getD (i * 2 + 1) false))

/-- Failure modes of the character codec: `invalidLength` models the
`ValueError` raised on a wrong-sized input (lines 40-41 and 59-60),
`unicodeDecodeError` the `UnicodeDecodeError` that `bytes.decode()` raises in
`fromjura` (line 67) when the reconstructed byte is not valid UTF-8 (≥ 128). -/
inductive JuraError where
  | invalidLength
  | unicodeDecodeError
  deriving DecidableEq

/-- `JuraEncoder.tojura` (lines 39-54) with `hex=0`: the input string is a list
of code points; anything other than exactly one character raises
`ValueError('Needs a single byte')`. -/
def tojura (letter : List Nat) : Except JuraError (List (List Bool)) :=
  if letter.length ≠ 1 then Except.error JuraError.invalidLength
  else Except.ok (tojuraRaw (letter.headD 0))

/-- `JuraEncoder.fromjura` (lines 56-67) with `hex=0`: reads bit positions 2
and 5 of each of the 4 input bitarrays, undoes the permutation of `tojura`, and
UTF-8-decodes the resulting single byte (`out.tobytes().decode()`), which
succeeds exactly for bytes below 128.  The result is the decoded one-character
string, as a list of code points. -/
def fromjura (bs : List (List Bool)) : Except JuraError (List Nat) :=
  if bs.length ≠ 4 then Except.error JuraError.invalidLength
  else
    let out := [(bs.getD 0 []).getD 2 false, (bs.getD 0 []).getD 5 false,
                (bs.getD 1 []).getD 2 false, (bs.getD 1 []).getD 5 false,
                (bs.getD 2 []).getD 2 false, (bs.getD 2 []).getD 5 false,
                (bs.getD 3 []).getD 2 false, (bs.getD 3 []).getD 5 false]
    let out1 := out.drop 4 ++ out.take 4
    let out2 := (out1.drop 2).take 2 ++ out1.take 2 ++ (out1.drop 6).take 2 ++ (out1.drop 4).take 2
    let b := bitsToByte out2
    if b < 128 then Except.ok [b] else Except.error JuraError.unicodeDecodeError

/-- The WireChar invariant of the specification (§3, §4.3), written from the
spec's words: exactly 4 bytes; output byte `i` carries the 2-bit group `3 - i`
of the character's 8 bits (group 0 = most-significant pair) with the group's
first bit at bit position 2 and its second at bit position 5 (bit 0 = most
significant); every other bit position equals the template `01011011`. -/
def wireCharSpec (c : Nat) (bs : List (List Bool)) : Prop :=
  bs.length = 4 ∧
    ∀ i < 4,
      (bs.getD i []).getD 2 false = (byteToBits c).getD (2 * (3 - i)) false ∧
      (bs.getD i []).getD 5 false = (byteToBits c).getD (2 * (3 - i) + 1) false ∧
      ∀ j < 8, j ≠ 2 → j ≠ 5 → (bs.getD i []).getD j false = base_layout.getD j false

deriving instance DecidableEq for Except

instance wireCharSpecDecidable (c : Nat) (bs : List (List Bool)) : Decidable (wireCharSpec c bs) := by
  unfold wireCharSpec
  infer_instance

/-! ## Definitions: statistics reassembly -/

/-- `int("".join(["%02x" % d for d in chunk]), 16)`: the big-endian value of a
chunk of bytes.  For bytes below 256 (`%02x` yields exactly two hex digits,
which is the case for every `encDecBytes` output) the joined hex string parses
to exactly this base-256 value. -/
def bigEndianVal (chunk : List Nat) : Nat :=
  chunk.foldl (fun acc b => acc * 256 + b) 0

/-- The reassembly comprehensions at lines 274 (`w = 3`) and 291 (`w = 2`):
`[int("".join(["%02x" % d for d in decoded[i:i+w]]), 16) for i in
range(0, len(decoded), w)]`.  Python's `range(0, L, w)` enumerates the
`⌈L / w⌉` start offsets `0, w, 2w, … < L`, rendered here as `List.range'`;
the slice `decoded[i:i+w]` is `(decoded.drop i).take w` and is shorter than
`w` for a trailing incomplete group (Python slicing truncates, it does not
drop the group).  For `w = 0` Python's `range` would raise `ValueError`; the
embedding returns `[]` there and the script only ever uses `w ∈ {2, 3}`. -/
def reassemble (decoded : List Nat) (fieldWidth : Nat) : List Nat :=
  (List.range' 0 ((decoded.length + fieldWidth - 1) / fieldWidth) fieldWidth).map
    (fun i => bigEndianVal ((decoded.drop i).take fieldWidth))

/-- One entry of the product table built by `extract_products` (line 124). -/
structure Product where
  Code : Nat
  Name : String

/-- `log_statistics` (lines 208-216), as the list of `(code, name, value)`
triples it logs: for each index `i` of `decoded` whose code matches a product,
log the value, replacing 65535 by 0 first. -/
def log_statistics (decoded : List Nat) (products : List Product) : List (Nat × String × Nat) :=
  (List.range decoded.length).filterMap (fun i =>
    (products.find? (fun prod => prod.Code == i)).map (fun prod =>
      (i, prod.Name, if decoded.getD i 0 == 65535 then 0 else decoded.getD i 0)))

/-! ## Definitions: alert scan -/

/-- The guard of the alert scan loop (lines 264-267): bit `i` of the decoded
bitmask, read from byte `(i >> 3) + 1` at bit position `7 - (i & 0b111)`.  The
Python truthiness test `if (decoded[offset_abs] >> offset_byte) & 0b1:` holds
exactly when the masked value is 1. -/
def activeBit (decoded : List Nat) (i : Nat) : Bool :=
  ((decoded.getD ((i >>> 3) + 1) 0) >>> (7 - (i &&& 7))) &&& 1 == 1

/-- The set of bit indices the alert scan loop (lines 264-268) reports, in
loop order: `for i in range((len(decoded) - 1) * 8)` filtered by the guard. -/
def alertScan (decoded : List Nat) : List Nat :=
  (List.range ((decoded.length - 1) * 8)).filter (activeBit decoded)

/-- One iteration of the alert scan loop including the label lookup
`alerts[i]` (line 268): a prior exception propagates; an active bit appends
`(i, alerts[i])` to the log when `i` is inside the table and raises
`IndexError` otherwise (Python list indexing). -/
def alertStep (decoded : List Nat) (alerts : List (Option String))
    (acc : Except String (List (Nat × Option String))) (i : Nat) :
    Except String (List (Nat × Option String)) :=
  match acc with
  | Except.error e => Except.error e
  | Except.ok logged =>
    if activeBit decoded i then
      match alerts.get? i with
      | some lbl => Except.ok (logged ++ [(i, lbl)])
      | none => Except.error "IndexError: list index out of range"
    else Except.ok logged

/-- The alert scan loop (lines 264-268) with the `alerts[i]` lookup: either the
list of `(bit index, label)` pairs logged, or the `IndexError` that aborts the
scan.  Entries of the table may be `none` (`extract_alerts` fills unused
indices with Python `None`, which line 268 logs as the text "None"). -/
def alertReport (decoded : List Nat) (alerts : List (Option String)) :
    Except String (List (Nat × Option String)) :=
  (List.range ((decoded.length - 1) * 8)).foldl (alertStep decoded alerts) (Except.ok [])

/-! ## Cipher lemmas -/

lemma shuffle_eq_core (n p kl kr : Nat) :
    shuffle n p kl kr =
      (shuffleInt (n : Int) (((p : Int) + (kl : Int)) % 16)
        (((kr : Int) + ((p >>> 4 : Nat) : Int) % 256) % 16)).toNat := by
  simp only [shuffle, shuffleInt, mod256]
  generalize ((p >>> 4 : Nat) : Int) = q
  generalize (n : Int) = ni
  generalize (p : Int) = pi
  generalize (kl : Int) = kli
  generalize (kr : Int) = kri
  have e1 : (ni + pi + kli) % 256 % 16 = (ni + (pi + kli) % 16) % 16 := by omega
  rw [e1]
  generalize numbers1.getD (((ni + (pi + kli) % 16) % 16).toNat) 0 = T1
  have e2 : (T1 + kri + q % 256 - pi - kli) % 256 % 16
      = (T1 + (kri + q % 256) % 16 - (pi + kli) % 16) % 16 := by omega
  rw [e2]
  generalize numbers2.getD (((T1 + (kri + q % 256) % 16 - (pi + kli) % 16) % 16).toNat) 0 = T2
  have e3 : (T2 + kli + pi - kri - q % 256) % 256 % 16
      = (T2 + (pi + kli) % 16 - (kri + q % 256) % 16) % 16 := by omega
  rw [e3]
  generalize numbers1.getD (((T2 + (pi + kli) % 16 - (kri + q % 256) % 16) % 16).toNat) 0 = T3
  have e4 : (T3 - pi - kli) % 256 % 16 = (T3 - (pi + kli) % 16) % 16 := by omega
  rw [e4]

lemma shuffleInt_invol : ∀ (n a s : Fin 16),
    shuffleInt (shuffleInt ((n : Nat) : Int) ((a : Nat) : Int) ((s : Nat) : Int))
        ((a : Nat) : Int) ((s : Nat) : Int) = ((n : Nat) : Int) := by
  decide

lemma shuffleInt_range (n a s : Int) : 0 ≤ shuffleInt n a s ∧ shuffleInt n a s < 16 := by
  simp only [shuffleInt]
  omega

lemma shuffle_lt (n p kl kr : Nat) : shuffle n p kl kr < 16 := by
  simp only [shuffle, mod256]
  omega

lemma shuffle_shuffle (n p kl kr : Nat) (hn : n < 16) :
    shuffle (shuffle n p kl kr) p kl kr = n := by
  have hb1 := shuffle_eq_core n p kl kr
  have hb2 := shuffle_eq_core (shuffle n p kl kr) p kl kr
  set A : Int := (((p : Int) + (kl : Int)) % 16) with hA
  set S : Int := (((kr : Int) + ((p >>> 4 : Nat) : Int) % 256) % 16) with hS
  have hA0 : 0 ≤ A ∧ A < 16 := by rw [hA]; omega
  have hS0 : 0 ≤ S ∧ S < 16 := by rw [hS]; omega
  have hr := shuffleInt_range ((n : Nat) : Int) A S
  have hinv := shuffleInt_invol ⟨n, hn⟩ ⟨A.toNat, by omega⟩ ⟨S.toNat, by omega⟩
  simp only [Fin.val_mk] at hinv
  rw [Int.toNat_of_nonneg hA0.1, Int.toNat_of_nonneg hS0.1] at hinv
  rw [hb2, hb1]
  rw [Int.toNat_of_nonneg hr.1]
  rw [hinv]
  omega

lemma unpack16 : ∀ x < 16, ∀ y < 16,
    (((x : Nat) <<< 4 ||| y) >>> 4 = x) ∧ ((x <<< 4 ||| y) &&& 15 = y) ∧ ((x <<< 4 ||| y) < 256) := by
  decide

lemma hiLoNat : ∀ d < 256, ((d >>> 4) <<< 4) ||| (d &&& 15) = d := by
  decide

lemma and15_lt (d : Nat) : d &&& 15 < 16 := by
  have h := Nat.and_pow_two_sub_one_eq_mod d 4
  norm_num at h
  omega

lemma encDecAux_encDecAux (data : List Nat) (c kl kr : Nat) (h : ∀ d ∈ data, d < 256) :
    encDecAux (encDecAux data c kl kr) c kl kr = data := by
  induction data generalizing c with
  | nil => rfl
  | cons d rest ih =>
    have hd : d < 256 := h d (List.mem_cons_self d rest)
    have hhi : d >>> 4 < 16 := by omega
    have hlo : d &&& 15 < 16 := and15_lt d
    have hx := shuffle_lt (d >>> 4) c kl kr
    have hy := shuffle_lt (d &&& 15) (c + 1) kl kr
    have hu := unpack16 _ hx _ hy
    simp only [encDecAux]
    rw [hu.1, hu.2.1]
    rw [shuffle_shuffle _ c kl kr hhi, shuffle_shuffle _ (c + 1) kl kr hlo]
    rw [hiLoNat d hd]
    rw [ih (c + 2) (fun x hx2 => h x (List.mem_cons_of_mem d hx2))]

lemma shuffle_spec_eq (n pos kh kl : Nat) : shuffle_spec n pos kh kl = shuffle n pos kh kl := rfl

lemma encDecAux_get? (data : List Nat) (c kl kr i : Nat) :
    (encDecAux data c kl kr).get? i =
      (data.get? i).map (fun d =>
        (shuffle (d >>> 4) (c + 2 * i) kl kr <<< 4) ||| shuffle (d &&& 15) (c + 2 * i + 1) kl kr) := by
  induction data generalizing c i with
  | nil => simp [encDecAux]
  | cons d rest ih =>
    cases i with
    | zero => simp [encDecAux]
    | succ j =>
      simp only [encDecAux, List.get?]
      rw [ih (c + 2) j]
      have e : c + 2 + 2 * j = c + 2 * (j + 1) := by ring
      rw [e]

lemma encDecAux_length (data : List Nat) (c kl kr : Nat) :
    (encDecAux data c kl kr).length = data.length := by
  induction data generalizing c with
  | nil => rfl
  | cons d rest ih => simp [encDecAux, ih]

lemma bf_from_some (data : List Nat) :
    ∀ (fuel start k : Nat), bruteforce_from data start fuel = some k →
      start ≤ k ∧ k < start + fuel ∧ (encDecBytes data k).head? = some k ∧
        ∀ j, start ≤ j → j < k → (encDecBytes data j).head? ≠ some j := by
  intro fuel
  induction fuel with
  | zero => intro start k h; simp [bruteforce_from] at h
  | succ f ih =>
    intro start k h
    rw [bruteforce_from] at h
    by_cases hc : (encDecBytes data start).head? = some start
    · rw [if_pos hc] at h
      obtain rfl : start = k := by simpa using h
      exact ⟨le_refl _, by omega, hc, fun j h1 h2 => by omega⟩
    · rw [if_neg hc] at h
      obtain ⟨h1, h2, h3, h4⟩ := ih (start + 1) k h
      refine ⟨by omega, by omega, h3, fun j hj1 hj2 => ?_⟩
      rcases Nat.eq_or_lt_of_le hj1 with rfl | hlt
      · exact hc
      · exact h4 j hlt hj2

lemma bf_from_none (data : List Nat) :
    ∀ (fuel start : Nat), bruteforce_from data start fuel = none ↔
      ∀ j, start ≤ j → j < start + fuel → (encDecBytes data j).head? ≠ some j := by
  intro fuel
  induction fuel with
  | zero => intro start; simp [bruteforce_from]; omega
  | succ f ih =>
    intro start
    rw [bruteforce_from]
    by_cases hc : (encDecBytes data start).head? = some start
    · rw [if_pos hc]
      constructor
      · intro h; simp at h
      · intro h; exact absurd hc (h start (le_refl _) (by omega))
    · rw [if_neg hc]
      rw [ih (start + 1)]
      constructor
      · intro h j hj1 hj2
        rcases Nat.eq_or_lt_of_le hj1 with rfl | hlt
        · exact hc
        · exact h j hlt (by omega)
      · intro h j hj1 hj2
        exact h j (by omega) (by omega)

/-! ## Claim theorems: cipher -/

/-- C1: `encDecBytes` transforms the byte at payload index `i` into
`(h2 <<< 4) ||| l2` where `h2 = shuffle(b >> 4, 2i, keyHigh, keyLow)` and
`l2 = shuffle(b & 15, 2i + 1, keyHigh, keyLow)` with `keyHigh = key >> 4`,
`keyLow = key & 15`, and `shuffle` agrees with the specification's three-table
reference definition `shuffle_spec`. -/
theorem cipher_byte_transform_matches_reference (data : List Nat) (key i : Nat)
    (hi : i < data.length) :
    (encDecBytes data key).getD i 0 =
      (shuffle_spec ((data.getD i 0) >>> 4) (2 * i) (key >>> 4) (key &&& 15) <<< 4) |||
        shuffle_spec ((data.getD i 0) &&& 15) (2 * i + 1) (key >>> 4) (key &&& 15) := by
  rw [shuffle_spec_eq, shuffle_spec_eq]
  unfold encDecBytes
  rw [List.getD_eq_get?, List.getD_eq_get?]
  rw [encDecAux_get? data 0 (key >>> 4) (key &&& 15) i]
  cases hv : data.get? i with
  | none =>
    exfalso
    exact absurd (List.get?_eq_none.mp hv) (by omega)
  | some v => simp

theorem cipher_byte_transform_matches_reference_witness :
    (encDecBytes [171] 90).getD 0 0 =
      (shuffle_spec (([171].getD 0 0) >>> 4) (2 * 0) (90 >>> 4) (90 &&& 15) <<< 4) |||
        shuffle_spec (([171].getD 0 0) &&& 15) (2 * 0 + 1) (90 >>> 4) (90 &&& 15) :=
  cipher_byte_transform_matches_reference [171] 90 0 (by decide)

/-- C2: with a fixed key byte, `encDecBytes` is self-inverse on payloads of
bytes: applying it twice with the same key returns the original payload. -/
theorem cipher_selfInverse (key : Nat) (p : List Nat) (hk : key < 256)
    (hp : ∀ b ∈ p, b < 256) :
    encDecBytes (encDecBytes p key) key = p := by
  clear hk
  exact encDecAux_encDecAux p 0 (key >>> 4) (key &&& 15) hp

theorem cipher_selfInverse_witness :
    encDecBytes (encDecBytes [90, 0, 61, 255] 90) 90 = [90, 0, 61, 255] :=
  cipher_selfInverse 90 [90, 0, 61, 255] (by decide) (by decide)

/-- C3: on a non-empty payload, `bruteforce_key` returns the smallest candidate
key in 0..255 (ascending search) whose decode makes the first output byte equal
the candidate, and returns `none` exactly when no candidate in 0..255 passes
that check. -/
theorem bruteforce_key_first_match (data : List Nat) (hne : data ≠ []) :
    (∀ k, bruteforce_key data = some k →
        k < 256 ∧ (encDecBytes data k).head? = some k ∧
          ∀ j, j < k → (encDecBytes data j).head? ≠ some j) ∧
      (bruteforce_key data = none ↔ ∀ k, k < 256 → (encDecBytes data k).head? ≠ some k) := by
  clear hne
  constructor
  · intro k h
    obtain ⟨h1, h2, h3, h4⟩ := bf_from_some data 256 0 k h
    exact ⟨by omega, h3, fun j hj => h4 j (by omega) hj⟩
  · rw [show bruteforce_key data = bruteforce_from data 0 256 from rfl]
    rw [bf_from_none data 256 0]
    constructor
    · intro h k hk
      exact h k (by omega) (by omega)
    · intro h j hj1 hj2
      exact h j (by omega)

theorem bruteforce_key_first_match_witness :
    (∀ k, bruteforce_key [90] = some k →
        k < 256 ∧ (encDecBytes [90] k).head? = some k ∧
          ∀ j, j < k → (encDecBytes [90] j).head? ≠ some j) ∧
      (bruteforce_key [90] = none ↔ ∀ k, k < 256 → (encDecBytes [90] k).head? ≠ some k) :=
  bruteforce_key_first_match [90] (by decide)

/-- C10: `encDecBytes` preserves the length of its input, and every output
element is a byte (0..255): each `shuffle` output is a nibble below 16, so each
recombined output byte is below 256. -/
theorem encDecBytes_length_and_range (data : List Nat) (key : Nat) :
    (encDecBytes data key).length = data.length ∧
      ∀ b ∈ encDecBytes data key, b ≤ 255 := by
  constructor
  · exact encDecAux_length data 0 (key >>> 4) (key &&& 15)
  · unfold encDecBytes
    generalize (key >>> 4) = kl
    generalize (key &&& 15) = kr
    generalize 0 = c
    induction data generalizing c with
    | nil => simp [encDecAux]
    | cons d rest ih =>
      simp only [encDecAux, List.mem_cons]
      rintro b (rfl | hb)
      · have hx := shuffle_lt (d >>> 4) c kl kr
        have hy := shuffle_lt (d &&& 15) (c + 1) kl kr
        have hu := (unpack16 _ hx _ hy).2.2
        omega
      · exact ih (c + 2) b hb

/-! ## Claim theorems: character codec -/

/-- C4 (amended): the round-trip law `decodeChar(encodeChar(c)) = c` holds for
every code point `c` below 128, i.e. for every character whose UTF-8 encoding
is the single byte `c`.  (For `c ≥ 128` the round trip fails, see the
counterexample: `tojura` packs the final UTF-8 byte of the character and
`fromjura`'s `bytes.decode()` rejects the reconstructed byte.) -/
theorem jura_roundtrip_ascii : ∀ c : Fin 128,
    Except.bind (tojura [c.val]) fromjura = Except.ok [c.val] := by
  decide

/-- C4 counterexample: at byte value 128 the round trip does not return the
input; `fromjura` raises `UnicodeDecodeError`, because `tojura` packed the
final UTF-8 byte `0x80` of the two-byte encoding of the character U+0080. -/
theorem jura_roundtrip_fails_at_128 :
    Except.bind (tojura [128]) fromjura = Except.error JuraError.unicodeDecodeError ∧
      Except.bind (tojura [128]) fromjura ≠ Except.ok [128] := by
  decide

/-- C5 (amended): for every character with code point below 192 (exactly those
whose final UTF-8 byte equals the character's low 8 bits), `tojura` produces 4
template bytes with output byte `i` carrying the 2-bit group `3 - i` of the
character's 8 bits at bit positions 2 and 5, all other positions equal to the
template `01011011`. -/
theorem tojura_group_mapping_below_192 : ∀ c : Fin 192,
    tojura [c.val] = Except.ok (tojuraRaw c.val) ∧ wireCharSpec c.val (tojuraRaw c.val) := by
  decide

/-- C5 counterexample: at code point 192 the produced wire bytes do not carry
the groups of the character's own 8 bits (the packed bits are those of the
final UTF-8 byte `0x80` instead of `0xC0`), violating the claimed mapping. -/
theorem tojura_group_mapping_fails_at_192 :
    tojura [192] = Except.ok (tojuraRaw 192) ∧ ¬ wireCharSpec 192 (tojuraRaw 192) := by
  decide

/-- C8: `tojura` reports `invalidLength` exactly when its input is not a single
character, `fromjura` exactly when its input is not exactly 4 bytes; no
valid-length input ever produces that error, and (`Except` being the model of
the raised exception) a failing call produces no partial result. -/
theorem jura_invalidLength_errors (letter : List Nat) (bs : List (List Bool)) :
    (tojura letter = Except.error JuraError.invalidLength ↔ letter.length ≠ 1) ∧
      (fromjura bs = Except.error JuraError.invalidLength ↔ bs.length ≠ 4) := by
  constructor
  · unfold tojura
    split <;> simp_all
  · unfold fromjura
    split
    · simp_all
    · dsimp only
      split <;> simp_all

/-! ## Reassembly lemmas -/

lemma idx_lt_ceil (i w L : Nat) (hw : 0 < w) : i * w < L ↔ i < (L + w - 1) / w := by
  have h : i + 1 ≤ (L + w - 1) / w ↔ (i + 1) * w ≤ L + w - 1 := Nat.le_div_iff_mul_le hw
  rw [show (i + 1) * w = i * w + w from by ring] at h
  constructor
  · intro hlt
    exact h.mpr (by omega)
  · intro hlt
    have h1 := h.mp hlt
    omega

lemma reassemble_get? (l : List Nat) (w i : Nat) (hw : 0 < w) :
    (reassemble l w).get? i =
      if i * w < l.length then some (bigEndianVal ((l.drop (i * w)).take w)) else none := by
  rw [reassemble, List.get?_map]
  by_cases hc : i * w < l.length
  · rw [if_pos hc]
    rw [List.get?_range' 0 w ((idx_lt_ceil i w l.length hw).mp hc)]
    simp [Nat.mul_comm]
  · rw [if_neg hc]
    have hnone : (List.range' 0 ((l.length + w - 1) / w) w).get? i = none := by
      rw [List.get?_eq_none, List.length_range']
      have := mt (idx_lt_ceil i w l.length hw).mpr hc
      omega
    rw [hnone]
    rfl

/-! ## Claim theorems: statistics reassembly -/

/-- C6 counterexample: the code does not normalize 65535 to 0 during
reassembly (the claimed `reassemble([0xFF,0xFF,0x00,0x05], 2) == [0, 5]` is
false), and it does not drop a trailing incomplete group (a trailing short
slice is parsed as a shorter big-endian value instead). -/
theorem reassemble_claim_counterexample :
    reassemble [255, 255, 0, 5] 2 = [65535, 5] ∧
      reassemble [255, 255, 0, 5] 2 ≠ [0, 5] ∧
      reassemble [0, 1, 0, 2, 7] 2 = [1, 2, 7] ∧
      reassemble [0, 1, 0, 2, 7] 2 ≠ [1, 2] := by
  decide

/-- C6 (amended): reassembly partitions the decoded bytes into consecutive
groups of `fieldWidth` bytes — the group at index `i` being the slice starting
at byte `i * fieldWidth` — interpreted big-endian, with a trailing incomplete
group kept (parsed as a shorter big-endian value), and applies no 65535 → 0
normalization; that normalization happens only when `log_statistics` logs a
product-matched value, so no logged product value is ever 65535. -/
theorem reassemble_characterization (l : List Nat) (w : Nat)
    (decoded : List Nat) (products : List Product) (hw : 0 < w) :
    (reassemble l w).length = (l.length + w - 1) / w ∧
      (∀ i, i * w < l.length →
        (reassemble l w).get? i = some (bigEndianVal ((l.drop (i * w)).take w))) ∧
      (∀ i, l.length ≤ i * w → (reassemble l w).get? i = none) ∧
      reassemble [0, 1, 0, 2] 2 = [1, 2] ∧
      reassemble [255, 255, 0, 5] 2 = [65535, 5] ∧
      (∀ t ∈ log_statistics decoded products, t.2.2 ≠ 65535) := by
  refine ⟨?_, ?_, ?_, by decide, by decide, ?_⟩
  · rw [reassemble, List.length_map, List.length_range']
  · intro i h
    rw [reassemble_get? l w i hw, if_pos h]
  · intro i h
    rw [reassemble_get? l w i hw, if_neg (by omega)]
  · intro t ht
    simp only [log_statistics, List.mem_filterMap, List.mem_range, Option.map_eq_some'] at ht
    obtain ⟨j, hj, prod, hfind, rfl⟩ := ht
    by_cases hv : decoded[j]?.getD 0 = 65535
    · simp [hv]
    · simp [hv]

theorem reassemble_characterization_witness :
    (reassemble [0, 1, 0, 2, 7] 2).length = ([0, 1, 0, 2, 7].length + 2 - 1) / 2 ∧
      (∀ i, i * 2 < [0, 1, 0, 2, 7].length →
        (reassemble [0, 1, 0, 2, 7] 2).get? i =
          some (bigEndianVal (([0, 1, 0, 2, 7].drop (i * 2)).take 2))) ∧
      (∀ i, [0, 1, 0, 2, 7].length ≤ i * 2 → (reassemble [0, 1, 0, 2, 7] 2).get? i = none) ∧
      reassemble [0, 1, 0, 2] 2 = [1, 2] ∧
      reassemble [255, 255, 0, 5] 2 = [65535, 5] ∧
      (∀ t ∈ log_statistics [65535, 5] [⟨0, "total"⟩], t.2.2 ≠ 65535) :=
  reassemble_characterization [0, 1, 0, 2, 7] 2 [65535, 5] [⟨0, "total"⟩] (by decide)

/-! ## Alert scan lemmas -/

lemma activeBit_iff (decoded : List Nat) (i : Nat) :
    activeBit decoded i = true ↔
      Nat.testBit (decoded.getD (1 + i / 8) 0) (7 - i % 8) = true := by
  rw [activeBit]
  have h7 : i &&& 7 = i % 8 := by
    have h := Nat.and_pow_two_sub_one_eq_mod i 3
    norm_num at h
    exact h
  have hs : i >>> 3 = i / 8 := by omega
  rw [h7, hs, Nat.add_comm (i / 8) 1]
  rw [Nat.and_one_is_mod, Nat.shiftRight_eq_div_pow, Nat.testBit_to_div_mod]
  simp

lemma alertFold (decoded : List Nat) (alerts : List (Option String)) :
    ∀ (idxs : List Nat) (acc : List (Nat × Option String)),
      (∀ i ∈ idxs, activeBit decoded i = true → i < alerts.length) →
      idxs.foldl (alertStep decoded alerts) (Except.ok acc) =
        Except.ok (acc ++ (idxs.filter (activeBit decoded)).map (fun i => (i, alerts.getD i none))) := by
  intro idxs
  induction idxs with
  | nil => intro acc h; simp
  | cons i rest ih =>
    intro acc h
    simp only [List.foldl_cons]
    by_cases hb : activeBit decoded i = true
    · have hi : i < alerts.length := h i (List.mem_cons_self i rest) hb
      rw [show alertStep decoded alerts (Except.ok acc) i = Except.ok (acc ++ [(i, alerts.getD i none)]) from ?_]
      · rw [ih (acc ++ [(i, alerts.getD i none)]) (fun j hj hbj => h j (List.mem_cons_of_mem i hj) hbj)]
        rw [List.filter_cons_of_pos hb]
        simp
      · rw [alertStep]
        rw [if_pos hb]
        rw [List.get?_eq_get hi]
        rw [List.getD_eq_get]
    · rw [show alertStep decoded alerts (Except.ok acc) i = Except.ok acc from ?_]
      · rw [ih acc (fun j hj hbj => h j (List.mem_cons_of_mem i hj) hbj)]
        rw [List.filter_cons_of_neg (by simpa using hb)]
      · rw [alertStep, if_neg hb]

/-! ## Claim theorems: alert scan -/

/-- C7: on a decoded sequence of `n ≥ 1` bytes the alert scan covers exactly
the bit indices `0 ≤ i < (n - 1) * 8`, and reports index `i` exactly when bit
`7 - (i mod 8)` (bit 7 most significant) of the byte at offset `1 + (i div 8)`
(skipping the reserved first byte) is set. -/
theorem alertScan_bit_indexing (decoded : List Nat) (hlen : 1 ≤ decoded.length) (i : Nat) :
    i ∈ alertScan decoded ↔
      (i < (decoded.length - 1) * 8 ∧
        Nat.testBit (decoded.getD (1 + i / 8) 0) (7 - i % 8) = true) := by
  clear hlen
  rw [alertScan, List.mem_filter, List.mem_range, activeBit_iff]

theorem alertScan_bit_indexing_witness :
    7 ∈ alertScan [0, 1, 0] ↔
      (7 < ([0, 1, 0].length - 1) * 8 ∧
        Nat.testBit ([0, 1, 0].getD (1 + 7 / 8) 0) (7 - 7 % 8) = true) :=
  alertScan_bit_indexing [0, 1, 0] (by decide) 7

/-- C9 (amended): when every active bit index is inside the alert table, the
scan terminates normally and logs each active index with its table entry —
including `none` entries, which are reported (as the text "None") rather than
failing; but an active bit index at or beyond the end of the table raises
`IndexError` and aborts the scan (see the counterexample). -/
theorem alertReport_ok_when_bits_in_table (decoded : List Nat) (alerts : List (Option String))
    (h : ∀ i ∈ alertScan decoded, i < alerts.length) :
    alertReport decoded alerts =
      Except.ok ((alertScan decoded).map (fun i => (i, alerts.getD i none))) := by
  rw [alertReport, alertScan]
  rw [alertFold decoded alerts (List.range ((decoded.length - 1) * 8)) []
    (fun i hi hb => h i (by rw [alertScan, List.mem_filter]; exact ⟨hi, hb⟩))]
  simp

theorem alertReport_ok_when_bits_in_table_witness :
    alertReport [0, 1, 0] (List.replicate 8 none) =
      Except.ok ((alertScan [0, 1, 0]).map
        (fun i => (i, (List.replicate 8 (none : Option String)).getD i none))) :=
  alertReport_ok_when_bits_in_table [0, 1, 0] (List.replicate 8 none) (by decide)

/-- C9 counterexample: on the decoded bytes `[0x00, 0x01]` bit index 7 is
active but the alert table is empty, so the scan aborts with `IndexError`
instead of treating the missing entry as a recoverable gap. -/
theorem alertReport_fails_beyond_table :
    activeBit [0, 1] 7 = true ∧
      alertReport [0, 1] [] = Except.error "IndexError: list index out of range" := by
  constructor
  · decide
  · rfl
